import Mathlib

/-!
Verification of the trim-graph program (src/src/main.rs).

The program reduces a GFA-style genome-assembly graph to the sub-graph induced
by a chosen subset of paths and walks.  The Lean definitions below are a
shallow embedding of the Rust source: each `def` mirrors one Rust function and
keeps its name where Lean allows it.  Strings are modelled through their
character lists; Rust `HashSet` becomes `Finset`; the rayon parallel
map/filter/reduce combinators are modelled by their documented sequential
semantics (order-preserving `collect`).
-/

namespace TrimGraph

/-- An edge between two oriented nodes, exactly the Rust type
`((String, bool), (String, bool))` from `type SortedEdges`/`type Edges`. -/
abbrev Edge := (String × Bool) × (String × Bool)

/-- The two separator characters of a path node-list-string
(`path.split_inclusive(&[',', ';'])` in `get_nodes_edges_from_path`). -/
def sepChars : List Char := [',', ';']

/-- Characters removed by `node_text.replace(['+', '-', ',', ';'], "")`. -/
def isMark (c : Char) : Bool := c == '+' || c == '-' || c == ',' || c == ';'

/-- Rust `str::split_inclusive` on a set of separator characters: splits after
every separator, keeping the separator at the end of its chunk; a trailing
chunk without separator is kept, and the empty string yields no chunks. -/
def splitInclusive (seps : List Char) : List Char → List (List Char)
  | [] => []
  | c :: cs =>
    if c ∈ seps then [c] :: splitInclusive seps cs
    else
      match splitInclusive seps cs with
      | [] => [[c]]
      | t :: ts => (c :: t) :: ts

/-- Rust `str::trim`: drop whitespace from both ends. -/
def trimChars (l : List Char) : List Char :=
  ((l.dropWhile Char.isWhitespace).reverse.dropWhile Char.isWhitespace).reverse

/-- Whether a character list ends with the given character. -/
def lastIs (l : List Char) (c : Char) : Bool := l.getLast? == some c

/-- The node id recovered from one path token:
`node_text.trim().replace(['+', '-', ',', ';'], "")`. -/
def tokNode (t : List Char) : String :=
  String.mk ((trimChars t).filter (fun c => !(isMark c)))

/-- The `is_jump` value of one path token: `some true` when the trimmed token
ends with `;`, `some false` when it ends with `,`, `none` otherwise. -/
def tokSep (t : List Char) : Option Bool :=
  if lastIs (trimChars t) ';' then some true
  else if lastIs (trimChars t) ',' then some false
  else none

/-- The orientation of one path token: when a separator is present the
character right before it must be `+`; otherwise the token must end in `+`. -/
def tokOrient (t : List Char) : Bool :=
  match tokSep t with
  | some _ => lastIs (trimChars t).dropLast '+'
  | none => lastIs (trimChars t) '+'

/-- Accumulator of the token loop in `get_nodes_edges_from_path`:
the `nodes`, `links` and `jumps` vectors. -/
structure PathAcc where
  nodes : List (String × Bool)
  links : List Edge
  jumps : List Edge
deriving DecidableEq

/-- One iteration of the loop body of `get_nodes_edges_from_path`.  The
result is `none` exactly on the Rust panic
`is_jump.expect("All nodes before last should have separator")`: a token
without separator seen while a previous node exists. -/
def pathStep (acc : PathAcc) (tok : List Char) : Option PathAcc :=
  let cur : String × Bool := (tokNode tok, tokOrient tok)
  match acc.nodes.getLast?, tokSep tok with
  | some prev, some true =>
      some ⟨acc.nodes ++ [cur], acc.links, acc.jumps ++ [(cur, prev)]⟩
  | some prev, some false =>
      some ⟨acc.nodes ++ [cur], acc.links ++ [(cur, prev)], acc.jumps⟩
  | some _, none => none
  | none, _ => some ⟨acc.nodes ++ [cur], acc.links, acc.jumps⟩

/-- The full token loop: split inclusively on `,`/`;`, iterate in reverse. -/
def decodePath (path : String) : Option PathAcc :=
  ((splitInclusive sepChars path.data).reverse).foldlM pathStep ⟨[], [], []⟩

/-- Rust `get_nodes_edges_from_path`: node ids (orientation projected away,
as in `nodes.into_iter().map(|(s, _)| s)`), link edges and jump edges.
The `none` case of `decodePath` is a panic in the source; it is proved
unreachable in `decodePath_isSome` below. -/
def get_nodes_edges_from_path (path : String) : List String × List Edge × List Edge :=
  match decodePath path with
  | some acc => (acc.nodes.map Prod.fst, acc.links, acc.jumps)
  | none => ([], [], [])

/-- Character class `[!-;=?-~]` of the walk-token regular expression
`([><])([!-;=?-~]+)`: visible ASCII without `<` and `>`. -/
def isIdChar (c : Char) : Bool :=
  (0x21 ≤ c.toNat && c.toNat ≤ 0x3B) || c.toNat == 0x3D ||
    (0x3F ≤ c.toNat && c.toNat ≤ 0x7E)

/-- Emit the token being built, if any; a direction sign followed by no id
character is not a match of the regular expression and emits nothing. -/
def emitTok : Option (Bool × List Char) → List (String × Bool)
  | none => []
  | some (_, []) => []
  | some (d, c :: cs) => [(String.mk (c :: cs), d)]

/-- Left-to-right scan for the leftmost non-overlapping matches of
`([><])([!-;=?-~]+)`, as `RE.captures_iter` produces them: a `>`/`<` sign
starts a token, id characters extend the open token, anything else closes it. -/
def walkScan (cur : Option (Bool × List Char)) : List Char → List (String × Bool)
  | [] => emitTok cur
  | c :: cs =>
    if c = '>' then emitTok cur ++ walkScan (some (true, [])) cs
    else if c = '<' then emitTok cur ++ walkScan (some (false, [])) cs
    else if isIdChar c then
      match cur with
      | some (d, acc) => walkScan (some (d, acc ++ [c])) cs
      | none => walkScan none cs
    else emitTok cur ++ walkScan none cs

/-- All `(id, direction)` captures of the walk regular expression in scan
order, with `true` for `>` (forward), as in
`(caps[2].to_string(), &caps[1] == ">")`. -/
def walkTokens (walk : String) : List (String × Bool) := walkScan none walk.data

/-- Rust `get_nodes_edges_from_walk`: the node ids of all captures and the
`tuple_windows` list of consecutive capture pairs. -/
def get_nodes_edges_from_walk (walk : String) : List String × List Edge :=
  let full_nodes := walkTokens walk
  (full_nodes.map Prod.fst, full_nodes.zip full_nodes.tail)

/-- Rust `flatten_into_hashset`: per-row `HashSet::from_iter` followed by a
rayon `reduce` with `HashSet::new` identity and `union` merge, modelled as
the fold of `Finset` unions. -/
def flatten_into_hashset {α : Type} [DecidableEq α] (v : List (List α)) : Finset α :=
  (v.map List.toFinset).foldr (fun s acc => s ∪ acc) ∅

/-- Rust `str::split` on one character (used with `'\t'`): the list of
fields, never empty, with empty fields kept. -/
def splitOnChar (sep : Char) : List Char → List (List Char)
  | [] => [[]]
  | c :: cs =>
    if c = sep then [] :: splitOnChar sep cs
    else
      match splitOnChar sep cs with
      | [] => [[c]]
      | t :: ts => (c :: t) :: ts

/-- The tab-separated fields of a record line (`l.split('\t')`). -/
def fieldsOf (line : String) : List String :=
  (splitOnChar '\t' line.data).map String.mk

/-- Field number 1 of a line: the path name of a `P` line, the node id of an
`S` line (`l.split('\t').nth(1)`).  The Rust code panics when the field is
missing; theorems only rely on this definition on lines that have the field. -/
def secondField (line : String) : String := (fieldsOf line).getD 1 ""

/-- Rust `get_paths`: keep exactly the path lines whose name field is
contained in `paths_to_keep` (rayon order-preserving filter). -/
def get_paths (paths : List String) (paths_to_keep : List String) : List String :=
  paths.filter (fun l => decide (secondField l ∈ paths_to_keep))

/-- Rust `fields[i].contains('+')`. -/
def hasPlus (s : String) : Bool := s.data.contains '+'

/-- The oriented edge built from fields 1..4 of an `L`/`J` line in
`filter_edges`. -/
def edgeOfLine (line : String) : Edge :=
  let fields := fieldsOf line
  ((fields.getD 1 "", hasPlus (fields.getD 2 "")),
   (fields.getD 3 "", hasPlus (fields.getD 4 "")))

/-- The same edge with its two endpoints swapped (`rev_edge`). -/
def revEdgeOfLine (line : String) : Edge :=
  let fields := fieldsOf line
  ((fields.getD 3 "", hasPlus (fields.getD 4 "")),
   (fields.getD 1 "", hasPlus (fields.getD 2 "")))

/-- Rust `filter_segments`: keep the segment lines whose id field is in
`nodes_to_keep` (rayon order-preserving filter). -/
def filter_segments (segments : List String) (nodes_to_keep : Finset String) : List String :=
  segments.filter (fun n => decide (secondField n ∈ nodes_to_keep))

/-- Rust `filter_edges`: keep the link/jump lines whose edge, in either
endpoint order, is in `edges_to_keep` (rayon order-preserving filter). -/
def filter_edges (links : List String) (edges_to_keep : Finset Edge) : List String :=
  links.filter (fun l =>
    decide (edgeOfLine l ∈ edges_to_keep ∨ revEdgeOfLine l ∈ edges_to_keep))

/-- Rust `get_nodes_edges`: decode field 2 of every path line and field 6 of
every walk line, flatten each component into a set, and extend the path node
and link sets with the walk ones.  Jumps come from paths only. -/
def get_nodes_edges (paths : List String) (walks : List String) :
    Finset String × Finset Edge × Finset Edge :=
  let perPath := paths.map (fun p => get_nodes_edges_from_path ((fieldsOf p).getD 2 ""))
  let nodes := flatten_into_hashset (perPath.map (fun r => r.1))
  let links := flatten_into_hashset (perPath.map (fun r => r.2.1))
  let jumps := flatten_into_hashset (perPath.map (fun r => r.2.2))
  let perWalk := walks.map (fun w => get_nodes_edges_from_walk ((fieldsOf w).getD 6 ""))
  let walk_nodes := flatten_into_hashset (perWalk.map (fun r => r.1))
  let walk_links := flatten_into_hashset (perWalk.map (fun r => r.2))
  (nodes ∪ walk_nodes, links ∪ walk_links, jumps)

/-- The command-line values `main` reads (file contents already loaded):
the optional selection list and the three ignore flags. -/
structure Params where
  paths_to_keep : Option (List String)
  ignore_segments : Bool
  ignore_links : Bool
  ignore_jumps : Bool
deriving DecidableEq

/-- The classified line buckets of `main` (the classifier itself is an
external collaborator per the design document). -/
structure Buckets where
  segments : List String
  link_lines : List String
  jump_lines : List String
  paths : List String
  walks : List String
  headers : List String
  others : List String
deriving DecidableEq

/-- The core of `main` after classification: build `paths_to_keep` (all path
names when no selection file is given), filter the path lines, keep every
walk line, build the keep-sets, and filter each bucket unless its ignore
flag is set. -/
def trimGraph (params : Params) (b : Buckets) : Buckets :=
  let paths_to_keep :=
    match params.paths_to_keep with
    | some l => l
    | none => b.paths.map secondField
  let paths := get_paths b.paths paths_to_keep
  let walks := b.walks
  let ne := get_nodes_edges paths walks
  { segments := if params.ignore_segments then b.segments
      else filter_segments b.segments ne.1
    link_lines := if params.ignore_links then b.link_lines
      else filter_edges b.link_lines ne.2.1
    jump_lines := if params.ignore_jumps then b.jump_lines
      else filter_edges b.jump_lines ne.2.2
    paths := paths
    walks := walks
    headers := b.headers
    others := b.others }

/-- The output loop of `main`: headers, segments, paths, walks, links,
jumps, then unrecognized lines. -/
def assemble (b : Buckets) : List String :=
  b.headers ++ b.segments ++ b.paths ++ b.walks ++ b.link_lines ++
    b.jump_lines ++ b.others

/-! ## Helper lemmas -/

theorem mem_flatten_into_hashset {α : Type} [DecidableEq α] (v : List (List α)) (x : α) :
    x ∈ flatten_into_hashset v ↔ ∃ r ∈ v, x ∈ r := by
  induction v with
  | nil => simp [flatten_into_hashset]
  | cons r v ih =>
    simp only [flatten_into_hashset, List.map_cons, List.foldr_cons, Finset.mem_union,
      List.mem_toFinset] at *
    rw [ih]
    simp

theorem flatten_into_hashset_append {α : Type} [DecidableEq α] (v w : List (List α)) :
    flatten_into_hashset (v ++ w) = flatten_into_hashset v ∪ flatten_into_hashset w := by
  induction v with
  | nil => simp [flatten_into_hashset]
  | cons r v ih =>
    simp only [flatten_into_hashset, List.map_cons, List.foldr_cons, List.map_append,
      List.foldr_append] at *
    rw [ih, Finset.union_assoc]

theorem flatten_into_hashset_perm {α : Type} [DecidableEq α] (v w : List (List α))
    (h : v.Perm w) : flatten_into_hashset v = flatten_into_hashset w := by
  ext x
  rw [mem_flatten_into_hashset, mem_flatten_into_hashset]
  constructor
  · rintro ⟨r, hr, hx⟩
    exact ⟨r, h.mem_iff.mp hr, hx⟩
  · rintro ⟨r, hr, hx⟩
    exact ⟨r, h.mem_iff.mpr hr, hx⟩

theorem trimChars_ws_append (ws t : List Char) (h : ∀ c ∈ ws, c.isWhitespace = true) :
    trimChars (ws ++ t) = trimChars t := by
  unfold trimChars
  rw [List.dropWhile_append_of_pos h]

theorem trimChars_getLast (t : List Char) (c : Char) (h : t.getLast? = some c)
    (hc : c.isWhitespace = false) : (trimChars t).getLast? = some c := by
  have hne' : t ≠ [] := by
    rintro rfl
    simp at h
  have hmem : c ∈ t := by
    have hg := List.getLast?_eq_getLast t hne'
    rw [h] at hg
    exact (Option.some.inj hg) ▸ List.getLast_mem hne'
  have hne : t.dropWhile Char.isWhitespace ≠ [] := by
    intro hnil
    have := (List.dropWhile_eq_nil_iff).mp hnil c hmem
    rw [hc] at this
    exact Bool.false_ne_true this
  have hsplit : t.takeWhile Char.isWhitespace ++ t.dropWhile Char.isWhitespace = t :=
    List.takeWhile_append_dropWhile _ _
  have hlast : (t.dropWhile Char.isWhitespace).getLast? = some c := by
    obtain ⟨d, hd⟩ : ∃ d, (t.dropWhile Char.isWhitespace).getLast? = some d := by
      cases hu : (t.dropWhile Char.isWhitespace).getLast? with
      | none => exact absurd (List.getLast?_eq_none_iff.mp hu) hne
      | some d => exact ⟨d, rfl⟩
    have := congrArg List.getLast? hsplit
    rw [List.getLast?_append, hd, h] at this
    simpa [← this] using hd
  unfold trimChars
  cases hr : (t.dropWhile Char.isWhitespace).reverse with
  | nil => exact absurd (by simpa using congrArg List.reverse hr) hne
  | cons d rest =>
    have hd : d = c := by
      have := congrArg List.head? hr
      rw [List.head?_reverse, hlast] at this
      simpa using this.symm
    subst hd
    rw [List.dropWhile_cons_of_neg (by simp [hc]), List.getLast?_reverse]
    rfl

theorem splitInclusive_sep_append (seps : List Char) (u : List Char) (c : Char)
    (rest : List Char) (hu : ∀ x ∈ u, x ∉ seps) (hc : c ∈ seps) :
    splitInclusive seps (u ++ c :: rest) = (u ++ [c]) :: splitInclusive seps rest := by
  induction u with
  | nil => simp [splitInclusive, hc]
  | cons x u ih =>
    have hx : x ∉ seps := hu x (by simp)
    simp only [List.cons_append, splitInclusive, if_neg hx, List.append_eq]
    rw [ih (fun y hy => hu y (by simp [hy]))]

theorem splitInclusive_no_sep (seps : List Char) (t : List Char) (hne : t ≠ [])
    (ht : ∀ x ∈ t, x ∉ seps) : splitInclusive seps t = [t] := by
  induction t with
  | nil => exact absurd rfl hne
  | cons x t ih =>
    have hx : x ∉ seps := ht x (by simp)
    simp only [splitInclusive, if_neg hx]
    cases t with
    | nil => simp [splitInclusive]
    | cons y t' =>
      rw [ih (by simp) (fun z hz => ht z (by simp [hz]))]

theorem splitInclusive_dropLast_sep (seps : List Char) (l : List Char) :
    ∀ t ∈ (splitInclusive seps l).dropLast, ∃ c ∈ seps, t.getLast? = some c := by
  induction l with
  | nil => intro t ht; simp [splitInclusive] at ht
  | cons c cs ih =>
    intro t ht
    by_cases hc : c ∈ seps
    · simp only [splitInclusive, if_pos hc] at ht
      cases hs : splitInclusive seps cs with
      | nil => rw [hs] at ht; simp at ht
      | cons s ss =>
        rw [hs, List.dropLast_cons₂] at ht
        rcases List.mem_cons.mp ht with rfl | ht'
        · exact ⟨c, hc, rfl⟩
        · exact ih t (by rw [hs]; exact ht')
    · simp only [splitInclusive, if_neg hc] at ht
      cases hs : splitInclusive seps cs with
      | nil => rw [hs] at ht; simp at ht
      | cons s ss =>
        rw [hs] at ht
        cases ss with
        | nil => simp at ht
        | cons s2 ss2 =>
          rw [List.dropLast_cons₂] at ht
          rcases List.mem_cons.mp ht with rfl | ht'
          · have hsmem : s ∈ (splitInclusive seps cs).dropLast := by
              rw [hs, List.dropLast_cons₂]
              exact List.mem_cons_self s _
            obtain ⟨d, hd, hlast⟩ := ih s hsmem
            refine ⟨d, hd, ?_⟩
            rw [show c :: s = [c] ++ s from rfl, List.getLast?_append, hlast]
            rfl
          · exact ih t (by rw [hs, List.dropLast_cons₂]; exact List.mem_cons_of_mem s ht')

theorem pathStep_isSome_sep (acc : PathAcc) (t : List Char) (c : Char) (hc : c ∈ sepChars)
    (h : t.getLast? = some c) : (pathStep acc t).isSome := by
  simp only [sepChars, List.mem_cons, List.mem_singleton, List.not_mem_nil, or_false] at hc
  have hws : c.isWhitespace = false := by
    rcases hc with rfl | rfl <;> decide
  have hlast := trimChars_getLast t c h hws
  unfold pathStep tokSep lastIs
  rcases hc with rfl | rfl <;>
    rw [hlast] <;> simp <;> cases acc.nodes.getLast? <;> simp

theorem pathStep_isSome_empty (acc : PathAcc) (t : List Char) (h : acc.nodes = []) :
    (pathStep acc t).isSome := by
  unfold pathStep
  rw [List.getLast?_eq_none_iff.mpr h]
  cases tokSep t <;> simp

theorem foldlM_pathStep_isSome (L : List (List Char))
    (h : ∀ t ∈ L, ∃ c ∈ sepChars, t.getLast? = some c) :
    ∀ acc, (L.foldlM pathStep acc).isSome := by
  induction L with
  | nil => intro acc; simp
  | cons t L ih =>
    intro acc
    rw [List.foldlM_cons]
    have h1 := pathStep_isSome_sep acc t _ (h t (by simp)).choose_spec.1
      (h t (by simp)).choose_spec.2
    cases hps : pathStep acc t with
    | none => rw [hps] at h1; simp at h1
    | some a => simpa using ih (fun s hs => h s (by simp [hs])) a

theorem decodePath_isSome (path : String) : (decodePath path).isSome := by
  unfold decodePath
  by_cases hnil : splitInclusive sepChars path.data = []
  · rw [hnil]; simp
  · rw [← List.dropLast_concat_getLast hnil, List.reverse_append, List.reverse_cons,
      List.reverse_nil, List.nil_append, List.singleton_append, List.foldlM_cons]
    have h0 := pathStep_isSome_empty ⟨[], [], []⟩
      ((splitInclusive sepChars path.data).getLast hnil) rfl
    cases hps : pathStep ⟨[], [], []⟩ ((splitInclusive sepChars path.data).getLast hnil) with
    | none => rw [hps] at h0; simp at h0
    | some a =>
      simpa using foldlM_pathStep_isSome (splitInclusive sepChars path.data).dropLast.reverse
        (fun t ht => splitInclusive_dropLast_sep sepChars path.data t
          (List.mem_reverse.mp ht)) a


/-- Rendering of a list of oriented walk tokens back to walk-string syntax:
direction sign followed by the id characters, concatenated. -/
def renderWalk (ts : List (String × Bool)) : List Char :=
  (ts.map (fun t => (if t.2 then '>' else '<') :: t.1.data)).flatten

/-- Well-formed walk tokens: every id is a nonempty run of characters of the
regular-expression id class. -/
def wfWalk (ts : List (String × Bool)) : Prop :=
  ∀ t ∈ ts, t.1.data ≠ [] ∧ ∀ c ∈ t.1.data, isIdChar c = true

theorem isIdChar_ne_sign (c : Char) (h : isIdChar c = true) : c ≠ '>' ∧ c ≠ '<' := by
  constructor <;> rintro rfl <;> simp [isIdChar] at h

theorem walkScan_nil (st : Option (Bool × List Char)) : walkScan st [] = emitTok st := rfl

theorem walkScan_cons_gt (st : Option (Bool × List Char)) (l : List Char) :
    walkScan st ('>' :: l) = emitTok st ++ walkScan (some (true, [])) l := by
  simp [walkScan]

theorem walkScan_cons_lt (st : Option (Bool × List Char)) (l : List Char) :
    walkScan st ('<' :: l) = emitTok st ++ walkScan (some (false, [])) l := by
  simp [walkScan]

theorem walkScan_cons_idChar (d : Bool) (acc : List Char) (c : Char) (l : List Char)
    (h3 : isIdChar c = true) :
    walkScan (some (d, acc)) (c :: l) = walkScan (some (d, acc ++ [c])) l := by
  obtain ⟨h1, h2⟩ := isIdChar_ne_sign c h3
  simp [walkScan, h1, h2, h3]

theorem walkScan_idRun (id : List Char) (hid : ∀ c ∈ id, isIdChar c = true) :
    ∀ (rest : List Char) (d : Bool) (acc : List Char),
      walkScan (some (d, acc)) (id ++ rest) = walkScan (some (d, acc ++ id)) rest := by
  induction id with
  | nil => intro rest d acc; simp
  | cons c id ih =>
    intro rest d acc
    rw [List.cons_append, walkScan_cons_idChar d acc c _ (hid c (by simp))]
    rw [ih (fun x hx => hid x (by simp [hx])) rest d (acc ++ [c])]
    simp

theorem walkScan_render (ts : List (String × Bool)) (h : wfWalk ts) :
    ∀ st, walkScan st (renderWalk ts) = emitTok st ++ ts := by
  induction ts with
  | nil => intro st; simp [renderWalk, walkScan_nil]
  | cons t ts ih =>
    intro st
    obtain ⟨hne, hid⟩ := h t (by simp)
    have hrest : wfWalk ts := fun s hs => h s (by simp [hs])
    rcases t with ⟨id, d⟩
    show walkScan st (((if d then '>' else '<') :: id.data) ++ renderWalk ts) = _
    have hemit : emitTok (some (d, id.data)) = [(id, d)] := by
      cases hi : id.data with
      | nil => exact absurd hi hne
      | cons c cs =>
        show [(String.mk (c :: cs), d)] = [(id, d)]
        rw [← hi]
    cases d
    · rw [if_neg (by simp), List.cons_append, walkScan_cons_lt]
      rw [walkScan_idRun id.data hid (renderWalk ts) false []]
      rw [ih hrest (some (false, [] ++ id.data))]
      simp only [List.nil_append, hemit]
      simp
    · rw [if_pos rfl, List.cons_append, walkScan_cons_gt]
      rw [walkScan_idRun id.data hid (renderWalk ts) true []]
      rw [ih hrest (some (true, [] ++ id.data))]
      simp only [List.nil_append, hemit]
      simp

/-- Well-formed path tokens, the shape `split_inclusive` produces: nonempty,
separators only in final position, and every token except the last ends with
a separator. -/
def wfToks (ts : List (List Char)) : Prop :=
  (∀ t ∈ ts, t ≠ []) ∧ (∀ t ∈ ts, ∀ c ∈ t.dropLast, c ∉ sepChars) ∧
    (∀ t ∈ ts.dropLast, ∃ c ∈ sepChars, t.getLast? = some c)

instance (ts : List (List Char)) : Decidable (wfToks ts) := by
  unfold wfToks
  infer_instance

theorem sep_ended_decomp (t : List Char) (htne : t ≠ []) (c : Char)
    (hlast : t.getLast? = some c) : t = t.dropLast ++ [c] := by
  have h1 := List.dropLast_concat_getLast htne
  have h2 := List.getLast?_eq_getLast t htne
  rw [hlast] at h2
  rw [← Option.some.inj h2] at h1
  exact h1.symm

theorem splitInclusive_join_pad (ts : List (List Char)) :
    ∀ (pads : List (List Char)), wfToks ts → pads.length = ts.length →
      (∀ p ∈ pads, ∀ c ∈ p, c ∉ sepChars) →
      splitInclusive sepChars (List.zipWith (fun p t => p ++ t) pads ts).flatten =
        List.zipWith (fun p t => p ++ t) pads ts := by
  induction ts with
  | nil =>
    intro pads _ hlen _
    have hp : pads = [] := List.length_eq_zero.mp (by simpa using hlen)
    subst hp
    rfl
  | cons t ts ih =>
    intro pads hwf hlen hpad
    cases pads with
    | nil => simp at hlen
    | cons p ps =>
      obtain ⟨h1, h2, h3⟩ := hwf
      have htne : t ≠ [] := h1 t (by simp)
      have hpt : ∀ c ∈ p ++ t.dropLast, c ∉ sepChars := by
        intro c hcm
        rcases List.mem_append.mp hcm with hcp | hct
        · exact hpad p (by simp) c hcp
        · exact h2 t (by simp) c hct
      simp only [List.zipWith_cons_cons, List.flatten_cons]
      cases ts with
      | nil =>
        have hps : ps = [] := List.length_eq_zero.mp (by simpa using hlen)
        subst hps
        simp only [List.zipWith_nil_right, List.flatten_nil, List.append_nil]
        by_cases hsep : ∃ c ∈ sepChars, t.getLast? = some c
        · obtain ⟨c, hcs, hlast⟩ := hsep
          have htd := sep_ended_decomp t htne c hlast
          have key := splitInclusive_sep_append sepChars (p ++ t.dropLast) c [] hpt hcs
          rw [show p ++ t = (p ++ t.dropLast) ++ c :: [] by
            conv_lhs => rw [htd]
            simp]
          rw [key]
          rw [show (p ++ t.dropLast) ++ [c] = p ++ t by
            conv_rhs => rw [htd]
            simp]
          rfl
        · have hall : ∀ x ∈ p ++ t, x ∉ sepChars := by
            intro x hx
            rcases List.mem_append.mp hx with hxp | hxt
            · exact hpad p (by simp) x hxp
            · have hxt' : x ∈ t.dropLast ++ [t.getLast htne] := by
                rw [List.dropLast_concat_getLast htne]
                exact hxt
              rcases List.mem_append.mp hxt' with hhx | hhx
              · exact h2 t (by simp) x hhx
              · intro hmem
                refine hsep ⟨x, hmem, ?_⟩
                rw [List.mem_singleton.mp hhx]
                exact List.getLast?_eq_getLast t htne
          exact splitInclusive_no_sep sepChars (p ++ t)
            (fun hh => htne (List.append_eq_nil.mp hh).2) hall
      | cons t2 ts2 =>
        cases ps with
        | nil => simp at hlen
        | cons p2 ps2 =>
          obtain ⟨c, hcs, hlast⟩ := h3 t (by rw [List.dropLast_cons₂]; simp)
          have htd := sep_ended_decomp t htne c hlast
          have key := splitInclusive_sep_append sepChars (p ++ t.dropLast) c
            (List.zipWith (fun p t => p ++ t) (p2 :: ps2) (t2 :: ts2)).flatten hpt hcs
          rw [show (p ++ t) ++ (List.zipWith (fun p t => p ++ t) (p2 :: ps2)
              (t2 :: ts2)).flatten = (p ++ t.dropLast) ++ c ::
              (List.zipWith (fun p t => p ++ t) (p2 :: ps2) (t2 :: ts2)).flatten by
            conv_lhs => rw [htd]
            simp]
          rw [key]
          rw [show (p ++ t.dropLast) ++ [c] = p ++ t by
            conv_rhs => rw [htd]
            simp]
          have hwl : wfToks (t2 :: ts2) := by
            refine ⟨fun s hs => h1 s (by simp [hs]), fun s hs => h2 s (by simp [hs]), ?_⟩
            intro s hs
            refine h3 s ?_
            rw [List.dropLast_cons₂]
            cases ts2 with
            | nil => simp at hs
            | cons a b =>
              rw [List.dropLast_cons₂] at hs ⊢
              exact List.mem_cons_of_mem t hs
          rw [ih (p2 :: ps2) hwl (by simpa using hlen)
            (fun q hq => hpad q (by simp [hq]))]

theorem zipWith_replicate_nil (ts : List (List Char)) :
    List.zipWith (fun (p t : List Char) => p ++ t)
      (List.replicate ts.length []) ts = ts := by
  induction ts with
  | nil => rfl
  | cons t ts ih => simp [List.replicate_succ, ih]

theorem splitInclusive_join (ts : List (List Char)) (hwf : wfToks ts) :
    splitInclusive sepChars ts.flatten = ts := by
  have h := splitInclusive_join_pad ts (List.replicate ts.length []) hwf
    (by simp) (by intro p hp; rw [List.eq_of_mem_replicate hp]; simp)
  rw [zipWith_replicate_nil ts] at h
  exact h

theorem pathStep_ws_pad (p t : List Char) (hp : ∀ c ∈ p, c.isWhitespace = true)
    (acc : PathAcc) : pathStep acc (p ++ t) = pathStep acc t := by
  unfold pathStep tokNode tokOrient tokSep
  rw [trimChars_ws_append p t hp]

theorem foldlM_pathStep_pad (ts : List (List Char)) :
    ∀ (ps : List (List Char)), ps.length = ts.length →
      (∀ p ∈ ps, ∀ c ∈ p, c.isWhitespace = true) → ∀ acc,
      (List.zipWith (fun p t => p ++ t) ps ts).foldlM pathStep acc =
        ts.foldlM pathStep acc := by
  induction ts with
  | nil =>
    intro ps hlen _ acc
    have hp : ps = [] := List.length_eq_zero.mp (by simpa using hlen)
    subst hp
    rfl
  | cons t ts ih =>
    intro ps hlen hws acc
    cases ps with
    | nil => simp at hlen
    | cons p ps =>
      rw [List.zipWith_cons_cons, List.foldlM_cons, List.foldlM_cons]
      rw [pathStep_ws_pad p t (hws p (by simp)) acc]
      cases hps : pathStep acc t with
      | none => rfl
      | some a =>
        exact ih ps (by simpa using hlen) (fun q hq => hws q (by simp [hq])) a

theorem zipWith_append_reverse (ps : List (List Char)) :
    ∀ (ts : List (List Char)), ps.length = ts.length →
      (List.zipWith (fun p t => p ++ t) ps ts).reverse =
        List.zipWith (fun p t => p ++ t) ps.reverse ts.reverse := by
  induction ps with
  | nil => intro ts _; simp
  | cons p ps ih =>
    intro ts hlen
    cases ts with
    | nil => simp at hlen
    | cons t ts =>
      rw [List.zipWith_cons_cons, List.reverse_cons, List.reverse_cons, List.reverse_cons]
      rw [List.zipWith_append _ ps.reverse [p] ts.reverse [t]
        (by simp; simpa using hlen)]
      rw [ih ts (by simpa using hlen)]
      rfl

theorem wsNotSep (c : Char) (h : c.isWhitespace = true) : c ∉ sepChars := by
  intro hc
  have hcc : c = ',' ∨ c = ';' := by simpa [sepChars] using hc
  rcases hcc with rfl | rfl <;> exact absurd h (by decide)

theorem get_paths_all (paths : List String) :
    get_paths paths (paths.map secondField) = paths := by
  unfold get_paths
  rw [List.filter_eq_self]
  intro l hl
  rw [decide_eq_true_eq]
  exact List.mem_map_of_mem secondField hl

instance (ts : List (String × Bool)) : Decidable (wfWalk ts) := by
  unfold wfWalk
  infer_instance

/-! ## The claims -/

/-- C5: the keep-set aggregation is an order-independent set union: an
element is in the aggregate iff some record list contains it, the result is
invariant under permutation of the records, concatenation of record lists
aggregates to the union (associativity of the merge), and the empty record
list aggregates to the empty set — so any parallel reduction order equals
the sequential union. -/
theorem claim_C5 {α : Type} [DecidableEq α] :
    (∀ (v : List (List α)) (x : α),
      x ∈ flatten_into_hashset v ↔ ∃ r ∈ v, x ∈ r) ∧
    (∀ v w : List (List α), v.Perm w →
      flatten_into_hashset v = flatten_into_hashset w) ∧
    (∀ v w : List (List α),
      flatten_into_hashset (v ++ w) =
        flatten_into_hashset v ∪ flatten_into_hashset w) ∧
    flatten_into_hashset ([] : List (List α)) = ∅ :=
  ⟨mem_flatten_into_hashset, flatten_into_hashset_perm,
    flatten_into_hashset_append, rfl⟩

/-- Witness for C5 at concrete inputs: permuting the records leaves the
aggregate unchanged, and a contained element is aggregated. -/
theorem claim_C5_witness :
    flatten_into_hashset ([[ 1, 2], [2, 3]] : List (List Nat)) =
      flatten_into_hashset ([[ 2, 3], [1, 2]] : List (List Nat)) ∧
    1 ∈ flatten_into_hashset ([[ 1, 2], [2, 3]] : List (List Nat)) := by
  constructor
  · exact claim_C5.2.1 _ _ (by decide)
  · exact (claim_C5.1 _ _).mpr ⟨[1, 2], by simp, by simp⟩

/-- C4: the edge filter keeps a link/jump line if and only if the oriented
edge built from its fields, or that edge with its endpoints swapped, is in
the keep-set; in particular a kept edge (A+,B-) retains both the line
`L A + B -` and the line `L B - A +`. -/
theorem claim_C4 :
    (∀ (lines : List String) (keep : Finset Edge) (l : String),
      l ∈ filter_edges lines keep ↔
        l ∈ lines ∧ (edgeOfLine l ∈ keep ∨ revEdgeOfLine l ∈ keep)) ∧
    filter_edges [ "L\tA\t+\tB\t-", "L\tB\t-\tA\t+"]
        {((( "A" : String), true), (( "B" : String), false))} =
      [ "L\tA\t+\tB\t-", "L\tB\t-\tA\t+"] := by
  constructor
  · intro lines keep l
    unfold filter_edges
    rw [List.mem_filter, decide_eq_true_eq]
  · decide

/-- Witness for C4: both endpoint orders of the kept edge (A+,B-) are
retained by the filter. -/
theorem claim_C4_witness :
    filter_edges [ "L\tA\t+\tB\t-", "L\tB\t-\tA\t+"]
        {((( "A" : String), true), (( "B" : String), false))} =
      [ "L\tA\t+\tB\t-", "L\tB\t-\tA\t+"] := claim_C4.2

/-- C7: both filters are stable: each equals the sequential filter of its
input by the membership predicate, the surviving lines form a sublist of
the input (original relative order), and a line survives iff it is an input
line satisfying the predicate. -/
theorem claim_C7 :
    (∀ (segments : List String) (keep : Finset String),
      filter_segments segments keep =
        segments.filter (fun l => decide (secondField l ∈ keep)) ∧
      (filter_segments segments keep).Sublist segments ∧
      ∀ l, l ∈ filter_segments segments keep ↔
        l ∈ segments ∧ secondField l ∈ keep) ∧
    (∀ (lines : List String) (keep : Finset Edge),
      filter_edges lines keep =
        lines.filter (fun l =>
          decide (edgeOfLine l ∈ keep ∨ revEdgeOfLine l ∈ keep)) ∧
      (filter_edges lines keep).Sublist lines ∧
      ∀ l, l ∈ filter_edges lines keep ↔
        l ∈ lines ∧ (edgeOfLine l ∈ keep ∨ revEdgeOfLine l ∈ keep)) := by
  constructor
  · intro segments keep
    refine ⟨rfl, List.filter_sublist _, ?_⟩
    intro l
    unfold filter_segments
    rw [List.mem_filter, decide_eq_true_eq]
  · intro lines keep
    refine ⟨rfl, List.filter_sublist _, ?_⟩
    intro l
    unfold filter_edges
    rw [List.mem_filter, decide_eq_true_eq]

/-- Witness for C7 at a concrete bucket: the surviving segment lines form a
sublist of the input. -/
theorem claim_C7_witness :
    (filter_segments [ "S\t1\tA", "S\t2\tB"] {( "1" : String)}).Sublist
      [ "S\t1\tA", "S\t2\tB"] :=
  (claim_C7.1 [ "S\t1\tA", "S\t2\tB"] {( "1" : String)}).2.1

/-- C2: for every path token carrying a previous node, the decoder step adds
an edge from the current oriented node to the previously-processed node,
a Link when the token terminator is comma and a Jump when it is semicolon;
in particular path `1+,2-,3+` yields node set {1,2,3}, link edges
{(1+,2-),(2-,3+)} and no jumps, and path `1+;2-,3+` yields link edges
{(2-,3+)} and jump edges {(1+,2-)}. -/
theorem claim_C2 :
    (∀ (acc : PathAcc) (tok : List Char) (prev : String × Bool),
      acc.nodes.getLast? = some prev → tokSep tok = some false →
      pathStep acc tok = some ⟨acc.nodes ++ [(tokNode tok, tokOrient tok)],
        acc.links ++ [((tokNode tok, tokOrient tok), prev)], acc.jumps⟩) ∧
    (∀ (acc : PathAcc) (tok : List Char) (prev : String × Bool),
      acc.nodes.getLast? = some prev → tokSep tok = some true →
      pathStep acc tok = some ⟨acc.nodes ++ [(tokNode tok, tokOrient tok)],
        acc.links, acc.jumps ++ [((tokNode tok, tokOrient tok), prev)]⟩) ∧
    ((get_nodes_edges_from_path "1+,2-,3+").1.toFinset = { "1", "2", "3"} ∧
     (get_nodes_edges_from_path "1+,2-,3+").2.1.toFinset =
       {((( "1" : String), true), (( "2" : String), false)),
        ((( "2" : String), false), (( "3" : String), true))} ∧
     (get_nodes_edges_from_path "1+,2-,3+").2.2 = []) ∧
    ((get_nodes_edges_from_path "1+;2-,3+").1.toFinset = { "1", "2", "3"} ∧
     (get_nodes_edges_from_path "1+;2-,3+").2.1.toFinset =
       {((( "2" : String), false), (( "3" : String), true))} ∧
     (get_nodes_edges_from_path "1+;2-,3+").2.2.toFinset =
       {((( "1" : String), true), (( "2" : String), false))}) := by
  refine ⟨?_, ?_, ⟨by decide, by decide, by decide⟩, by decide, by decide, by decide⟩
  · intro acc tok prev hl hs
    unfold pathStep
    rw [hl, hs]
  · intro acc tok prev hl hs
    unfold pathStep
    rw [hl, hs]

/-- Witness for C2 at a concrete step: processing token `1+,` with previous
node (2,-) appends the link edge ((1,+),(2,-)); processing token `1+;`
appends it as a jump edge instead. -/
theorem claim_C2_witness :
    pathStep ⟨[( "2", false)], [], []⟩ [ '1', '+', ','] =
      some ⟨[( "2", false)] ++
          [(tokNode [ '1', '+', ','], tokOrient [ '1', '+', ','])],
        [] ++ [((tokNode [ '1', '+', ','], tokOrient [ '1', '+', ',']),
          ( "2", false))], []⟩ ∧
    pathStep ⟨[( "2", false)], [], []⟩ [ '1', '+', ';'] =
      some ⟨[( "2", false)] ++
          [(tokNode [ '1', '+', ';'], tokOrient [ '1', '+', ';'])],
        [], [] ++ [((tokNode [ '1', '+', ';'], tokOrient [ '1', '+', ';']),
          ( "2", false))]⟩ :=
  ⟨claim_C2.1 ⟨[( "2", false)], [], []⟩ [ '1', '+', ','] ( "2", false)
      (by decide) (by decide),
    claim_C2.2.1 ⟨[( "2", false)], [], []⟩ [ '1', '+', ';'] ( "2", false)
      (by decide) (by decide)⟩

/-- C3: the walk decoder emits one oriented node per directed token in scan
order (rendering any well-formed token list and rescanning it returns the
same list), its edges are exactly the consecutive pairs of that sequence,
and walks never contribute jump edges (the jump keep-set does not depend on
the walk lines); e.g. `>1<2>3` yields oriented nodes [(1,+),(2,-),(3,+)]
and link edges {((1,+),(2,-)),((2,-),(3,+))}. -/
theorem claim_C3 :
    (∀ ts : List (String × Bool), wfWalk ts →
      walkTokens (String.mk (renderWalk ts)) = ts) ∧
    (∀ w : String, (get_nodes_edges_from_walk w).2 =
      (walkTokens w).zip (walkTokens w).tail) ∧
    (∀ (paths walks : List String),
      (get_nodes_edges paths walks).2.2 = (get_nodes_edges paths []).2.2) ∧
    (walkTokens ">1<2>3" = [( "1", true), ( "2", false), ( "3", true)] ∧
     (get_nodes_edges_from_walk ">1<2>3").2 =
       [(( "1", true), ( "2", false)), (( "2", false), ( "3", true))]) := by
  refine ⟨?_, ?_, ?_, by decide, by decide⟩
  · intro ts h
    show walkScan none (renderWalk ts) = ts
    rw [walkScan_render ts h none]
    rfl
  · intro w
    rfl
  · intro paths walks
    rfl

/-- Witness for C3: rescanning the rendered token list [(1,+),(2,-)] returns
it unchanged. -/
theorem claim_C3_witness :
    walkTokens (String.mk (renderWalk [( "1", true), ( "2", false)])) =
      [( "1", true), ( "2", false)] :=
  claim_C3.1 [( "1", true), ( "2", false)] (by decide)

/-- C9: each ignore flag frames its own bucket only: with the flag set the
corresponding bucket passes through unchanged whatever the keep-sets are,
and flipping the flag changes no other field of the result. -/
theorem claim_C9 (ptk : Option (List String)) (b : Buckets) (iS iL iJ : Bool) :
    (trimGraph ⟨ptk, true, iL, iJ⟩ b).segments = b.segments ∧
    (trimGraph ⟨ptk, iS, true, iJ⟩ b).link_lines = b.link_lines ∧
    (trimGraph ⟨ptk, iS, iL, true⟩ b).jump_lines = b.jump_lines ∧
    { trimGraph ⟨ptk, true, iL, iJ⟩ b with
        segments := (trimGraph ⟨ptk, false, iL, iJ⟩ b).segments } =
      trimGraph ⟨ptk, false, iL, iJ⟩ b ∧
    { trimGraph ⟨ptk, iS, true, iJ⟩ b with
        link_lines := (trimGraph ⟨ptk, iS, false, iJ⟩ b).link_lines } =
      trimGraph ⟨ptk, iS, false, iJ⟩ b ∧
    { trimGraph ⟨ptk, iS, iL, true⟩ b with
        jump_lines := (trimGraph ⟨ptk, iS, iL, false⟩ b).jump_lines } =
      trimGraph ⟨ptk, iS, iL, false⟩ b :=
  ⟨rfl, rfl, rfl, rfl, rfl, rfl⟩

/-- Witness for C9: with ignore_segments set, an otherwise-dropped segment
line passes through unchanged. -/
theorem claim_C9_witness :
    (trimGraph ⟨none, true, false, false⟩
        ⟨[ "S\t9\tA"], [], [], [], [], [], []⟩).segments = [ "S\t9\tA"] :=
  (claim_C9 none ⟨[ "S\t9\tA"], [], [], [], [], [], []⟩ false false false).1

/-- C8 counterexample: on the path string `,,`, whose tokens have empty ids
after stripping, the decoder does not fail: it returns a result (the modelled
panic, `none`, is not taken) consisting of two empty-id nodes and a link edge
between them — the malformed token is silently absorbed, not surfaced. -/
theorem claim_C8_counterexample :
    get_nodes_edges_from_path ",," =
      ([ "", ""], [((( "" : String), false), (( "" : String), false))], []) ∧
    (decodePath ",,").isSome = true := by
  constructor <;> decide

/-- C8 (amended): the path decoder never fails: for every path
node-list-string the token loop completes without hitting its only failure
point (the missing-separator panic), so a token whose id is empty after
stripping is silently absorbed as an empty-string node id rather than
raising any MalformedRecord error. -/
theorem claim_C8 : ∀ path : String, (decodePath path).isSome :=
  decodePath_isSome

/-- C10 counterexample: whitespace adjacent to a separator on its left does
change the decode: `1+ ,2-` and `1+,2-` yield different node lists and
edges (the space becomes part of the id and breaks orientation detection). -/
theorem claim_C10_counterexample :
    get_nodes_edges_from_path "1+ ,2-" ≠ get_nodes_edges_from_path "1+,2-" := by
  decide

/-- C10 (amended): the decoder trims leading and trailing whitespace from
every separator-delimited token, so inserting whitespace immediately after
a non-trailing separator (equivalently, at the start of any token) yields
exactly the same decode; whitespace before a separator is not removed. -/
theorem claim_C10 (ts pads : List (List Char)) (h1 : wfToks ts)
    (h2 : pads.length = ts.length)
    (h3 : ∀ p ∈ pads, ∀ c ∈ p, c.isWhitespace = true) :
    decodePath (String.mk (List.zipWith (fun p t => p ++ t) pads ts).flatten) =
      decodePath (String.mk ts.flatten) := by
  unfold decodePath
  rw [show (String.mk (List.zipWith (fun p t => p ++ t) pads ts).flatten).data =
    (List.zipWith (fun p t => p ++ t) pads ts).flatten from rfl]
  rw [show (String.mk ts.flatten).data = ts.flatten from rfl]
  rw [splitInclusive_join_pad ts pads h1 h2
    (fun p hp c hc => wsNotSep c (h3 p hp c hc))]
  rw [splitInclusive_join ts h1]
  rw [zipWith_append_reverse pads ts h2]
  exact foldlM_pathStep_pad ts.reverse pads.reverse (by simp [h2])
    (fun p hp => h3 p (List.mem_reverse.mp hp)) ⟨[], [], []⟩

/-- Witness for C10: padding the token `2-` of `1+,2-` with a leading space
(i.e. turning the string into `1+, 2-`) leaves the decode unchanged. -/
theorem claim_C10_witness :
    decodePath (String.mk (List.zipWith (fun p t => p ++ t)
        [[], [ ' ']] [[ '1', '+', ','], [ '2', '-']]).flatten) =
      decodePath (String.mk ([[ '1', '+', ','], [ '2', '-']] :
        List (List Char)).flatten) :=
  claim_C10 [[ '1', '+', ','], [ '2', '-']] [[], [ ' ']]
    (by decide) (by decide) (by decide)

/-- C1 counterexample: with an explicit empty selection list, a walk line
(whose name is certainly not in the list) is still retained in the output
and still contributes its nodes to the keep-sets — the segment it references
survives filtering.  The selection list only ever filters path lines. -/
theorem claim_C1_counterexample :
    (trimGraph ⟨some [], false, false, false⟩
        ⟨[ "S\t7\tA"], [], [], [], [ "W\ta\t1\tc\t0\t1\t>7"], [], []⟩).walks =
      [ "W\ta\t1\tc\t0\t1\t>7"] ∧
    (trimGraph ⟨some [], false, false, false⟩
        ⟨[ "S\t7\tA"], [], [], [], [ "W\ta\t1\tc\t0\t1\t>7"], [], []⟩).segments =
      [ "S\t7\tA"] := by
  constructor <;> decide

/-- C1 (amended): when a selection list is supplied, only the path records
are filtered by it: a path line whose name is not in the list contributes
nothing — removing it from the input changes neither the keep-sets nor any
output bucket — while every walk record is always retained regardless of
the selection list. -/
theorem claim_C1 :
    (∀ (sel : List String) (iS iL iJ : Bool)
      (segs links jumps pre post walks hdrs oths : List String) (p : String),
      secondField p ∉ sel →
      trimGraph ⟨some sel, iS, iL, iJ⟩
        ⟨segs, links, jumps, pre ++ p :: post, walks, hdrs, oths⟩ =
      trimGraph ⟨some sel, iS, iL, iJ⟩
        ⟨segs, links, jumps, pre ++ post, walks, hdrs, oths⟩) ∧
    (∀ (params : Params) (b : Buckets), (trimGraph params b).walks = b.walks) := by
  constructor
  · intro sel iS iL iJ segs links jumps pre post walks hdrs oths p hp
    have hpaths : get_paths (pre ++ p :: post) sel = get_paths (pre ++ post) sel := by
      unfold get_paths
      rw [List.filter_append, List.filter_append, List.filter_cons]
      rw [if_neg (by simpa using hp)]
    simp only [trimGraph]
    rw [hpaths]
  · intro params b
    rfl

/-- Witness for C1: dropping a path line whose name `p2` is not in the
selection list `[p1]` leaves the whole result unchanged. -/
theorem claim_C1_witness :
    trimGraph ⟨some [ "p1"], false, false, false⟩
        ⟨[], [], [], [] ++ "P\tp2\t1+" :: [], [], [], []⟩ =
      trimGraph ⟨some [ "p1"], false, false, false⟩
        ⟨[], [], [], [] ++ [], [], [], []⟩ :=
  claim_C1.1 [ "p1"] false false false [] [] [] [] [] [] [] []
    "P\tp2\t1+" (by decide)

/-- C6 counterexample: with no selection list, filtering is not a no-op on
every input: a segment line whose node id is referenced by no path or walk
is dropped, so the result differs from the input. -/
theorem claim_C6_counterexample :
    trimGraph ⟨none, false, false, false⟩
        ⟨[ "S\t9\tAAA"], [], [], [], [], [], []⟩ ≠
      ⟨[ "S\t9\tAAA"], [], [], [], [], [], []⟩ := by
  decide

/-- C6 (amended): with no selection list every path and every walk is
retained, and the keep-sets are built from all of them (they equal the full
referenced node/edge sets); filtering is then the identity exactly on the
lines whose referenced entity occurs in those sets — in particular, when
every segment, link and jump line is so referenced, the whole run is a
no-op. -/
theorem claim_C6 (b : Buckets)
    (hseg : ∀ l ∈ b.segments,
      secondField l ∈ (get_nodes_edges b.paths b.walks).1)
    (hlink : ∀ l ∈ b.link_lines,
      edgeOfLine l ∈ (get_nodes_edges b.paths b.walks).2.1 ∨
        revEdgeOfLine l ∈ (get_nodes_edges b.paths b.walks).2.1)
    (hjump : ∀ l ∈ b.jump_lines,
      edgeOfLine l ∈ (get_nodes_edges b.paths b.walks).2.2 ∨
        revEdgeOfLine l ∈ (get_nodes_edges b.paths b.walks).2.2) :
    get_paths b.paths (b.paths.map secondField) = b.paths ∧
    get_nodes_edges (get_paths b.paths (b.paths.map secondField)) b.walks =
      get_nodes_edges b.paths b.walks ∧
    trimGraph ⟨none, false, false, false⟩ b = b := by
  obtain ⟨segs, links, jumps, paths, walks, hdrs, oths⟩ := b
  have hall := get_paths_all paths
  refine ⟨hall, by rw [hall], ?_⟩
  rw [show trimGraph ⟨none, false, false, false⟩
      ⟨segs, links, jumps, paths, walks, hdrs, oths⟩ =
    ⟨filter_segments segs
        (get_nodes_edges (get_paths paths (paths.map secondField)) walks).1,
      filter_edges links
        (get_nodes_edges (get_paths paths (paths.map secondField)) walks).2.1,
      filter_edges jumps
        (get_nodes_edges (get_paths paths (paths.map secondField)) walks).2.2,
      get_paths paths (paths.map secondField), walks, hdrs, oths⟩ from rfl]
  rw [hall]
  have h1 : filter_segments segs (get_nodes_edges paths walks).1 = segs := by
    unfold filter_segments
    rw [List.filter_eq_self]
    intro a ha
    rw [decide_eq_true_eq]
    exact hseg a ha
  have h2 : filter_edges links (get_nodes_edges paths walks).2.1 = links := by
    unfold filter_edges
    rw [List.filter_eq_self]
    intro a ha
    rw [decide_eq_true_eq]
    exact hlink a ha
  have h3 : filter_edges jumps (get_nodes_edges paths walks).2.2 = jumps := by
    unfold filter_edges
    rw [List.filter_eq_self]
    intro a ha
    rw [decide_eq_true_eq]
    exact hjump a ha
  rw [h1, h2, h3]

/-- Witness for C6: a fully-referenced input (one path touching the only
segment and the only link) passes through the keep-all run unchanged. -/
theorem claim_C6_witness :
    trimGraph ⟨none, false, false, false⟩
        ⟨[ "S\t1\tA"], [ "L\t1\t+\t2\t-"], [], [ "P\tp\t1+,2-"], [],
          [ "H\tVN"], []⟩ =
      ⟨[ "S\t1\tA"], [ "L\t1\t+\t2\t-"], [], [ "P\tp\t1+,2-"], [],
        [ "H\tVN"], []⟩ :=
  (claim_C6 ⟨[ "S\t1\tA"], [ "L\t1\t+\t2\t-"], [], [ "P\tp\t1+,2-"], [],
      [ "H\tVN"], []⟩ (by decide) (by decide) (by decide)).2.2

end TrimGraph
